import Mathlib

/-!
Verification of the temporal batching / windowing engine of the
DeepPredTEC repository (ST-ResNet on GPS TEC maps).

The repository's `batch_utils.py` (`BatchDateUtils`, `TECUtils`) and
`omn_utils.py` (`OmnData`) hold the windowing core; only their callers
(`STResNet/main.py`, `ModelValidation/gen_pred_tec.py`) and the offline
validator (`ModelValidation/ts_pred_lat_bin.py`) are in the excerpt, so
the windowing core is modelled from the spec while the caller-side logic
(train/test split, file-path construction, the `ModValTSLat` constructor
checks) is embedded directly from the source.

Time is discretized in integer ticks of the base resolution (5 minutes);
a timestamp is a `Tick : Int`.
-/

namespace TECBatching

/-- A timestamp on the base-resolution grid, counted in 5-minute ticks. -/
abbrev Tick := Int

/-- Configuration of one temporal view (closeness / period / trend):
sampling frequency in base ticks, sequence length, enable flag. -/
structure WindowSpec where
  freq : Nat
  len : Nat
  enabled : Bool
deriving Repr, DecidableEq

/-- Modelled from the spec: the `WindowSampler` historical-offset algorithm
(`batch_utils.py` is absent from the excerpt).  For a channel with
frequency `f` and length `L` the required offsets are
`{-f, -2f, ..., -Lf}` ticks relative to the anchor, ordered from
most-recent to most-distant. -/
def channelOffsets (f L : Nat) : List Int :=
  (List.range L).map (fun i : Nat => -(((i : Int) + 1) * (f : Int)))

/-- Modelled from the spec: the `WindowSampler` output-horizon offsets.
For output frequency `of` and count `O` the required offsets are
`{of, 2*of, ..., O*of}` ticks ahead of the anchor. -/
def outputOffsets (outf O : Nat) : List Int :=
  (List.range O).map (fun i : Nat => ((i : Int) + 1) * (outf : Int))

theorem channelOffsets_length (f L : Nat) : (channelOffsets f L).length = L := by
  simp [channelOffsets]

theorem mem_channelOffsets (f L : Nat) (x : Int) :
    x ∈ channelOffsets f L ↔ ∃ k : Nat, 1 ≤ k ∧ k ≤ L ∧ x = -((k : Int) * f) := by
  simp only [channelOffsets, List.mem_map, List.mem_range]
  constructor
  · rintro ⟨i, hi, rfl⟩
    exact ⟨i + 1, Nat.le_add_left 1 i, by omega, by push_cast; ring⟩
  · rintro ⟨k, hk1, hkL, rfl⟩
    refine ⟨k - 1, by omega, ?_⟩
    have : ((k - 1 : Nat) : Int) = (k : Int) - 1 := by omega
    rw [this]; ring

/-- C1: For every channel configured with frequency `f ≥ 1` and length
`L ≥ 1`, the historical offsets computed by the window sampler are exactly
`{-f, -2f, ..., -Lf}`: the list has exactly `L` elements, each a multiple
of `f`, and it is strictly monotonic in time (most recent first). -/
theorem windowSampler_offsets_spec (f L : Nat) (hf : 1 ≤ f) (hL : 1 ≤ L) :
    (channelOffsets f L).length = L ∧
    (∀ x ∈ channelOffsets f L, (f : Int) ∣ x) ∧
    (∀ x : Int, x ∈ channelOffsets f L ↔ ∃ k : Nat, 1 ≤ k ∧ k ≤ L ∧ x = -((k : Int) * f)) ∧
    (channelOffsets f L).Pairwise (· > ·) := by
  refine ⟨channelOffsets_length f L, ?_, fun x => mem_channelOffsets f L x, ?_⟩
  · intro x hx
    rcases (mem_channelOffsets f L x).1 hx with ⟨k, _, _, rfl⟩
    exact ⟨-(k : Int), by ring⟩
  · rw [channelOffsets, List.pairwise_map]
    refine (List.pairwise_lt_range L).imp ?_
    intro a b hab
    have hf' : (0 : Int) < (f : Int) := by exact_mod_cast hf
    have : ((a : Int) + 1) * f < ((b : Int) + 1) * f := by
      apply mul_lt_mul_of_pos_right _ hf'
      exact_mod_cast Nat.succ_lt_succ hab
    omega

/-- Witness for C1 at `f = 2`, `L = 3`. -/
theorem windowSampler_offsets_spec_witness :
    (channelOffsets 2 3).length = 3 ∧
    (∀ x ∈ channelOffsets 2 3, (2 : Int) ∣ x) ∧
    (∀ x : Int, x ∈ channelOffsets 2 3 ↔ ∃ k : Nat, 1 ≤ k ∧ k ≤ 3 ∧ x = -((k : Int) * 2)) ∧
    (channelOffsets 2 3).Pairwise (· > ·) := by
  have h := windowSampler_offsets_spec 2 3 (by decide) (by decide)
  exact_mod_cast h

/-! ## BatchScheduleBuilder: partitioning anchors into batches (claim C2)

`BatchDateUtils` (in the absent `batch_utils.py`) enumerates the valid
anchors chronologically and splits them into consecutive groups of
`batch_size`; `batch_dict` maps each batch's representative date to the
anchors of that batch. -/

/-- Modelled from the spec: the `BatchScheduleBuilder` partitioning policy —
anchors are split into consecutive groups of `batch_size`; the final group,
if shorter than `batch_size`, is kept as-is (never padded, never dropped). -/
def chunkList {α : Type} (B : Nat) (xs : List α) : List (List α) :=
  match xs with
  | [] => []
  | x :: rest =>
    if B = 0 then []
    else (x :: rest).take B :: chunkList B ((x :: rest).drop B)
termination_by xs.length
decreasing_by
  simp only [List.length_drop, List.length_cons]
  omega

theorem chunkList_flatten {α : Type} (B : Nat) (hB : 1 ≤ B) (xs : List α) :
    (chunkList B xs).flatten = xs := by
  induction xs using chunkList.induct B with
  | case1 => simp [chunkList]
  | case2 x rest h => omega
  | case3 x rest h ih =>
    rw [chunkList, if_neg h]
    simp only [List.flatten_cons]
    rw [ih, List.take_append_drop]

theorem chunkList_length {α : Type} (B : Nat) (hB : 1 ≤ B) (xs : List α) :
    (chunkList B xs).length = (xs.length + B - 1) / B := by
  induction xs using chunkList.induct B with
  | case1 =>
    simp [chunkList, Nat.div_eq_of_lt (by omega : B - 1 < B)]
  | case2 x rest h => omega
  | case3 x rest h ih =>
    rw [chunkList, if_neg h]
    simp only [List.length_cons, List.length_drop] at ih ⊢
    rw [ih]
    set n := rest.length + 1 with hn
    rcases Nat.lt_or_ge n B with hlt | hge
    · have h1 : n - B = 0 := by omega
      rw [h1]
      have h2 : (0 + B - 1) / B = 0 := Nat.div_eq_of_lt (by omega)
      rw [h2]
      have h3 : n + B - 1 = (n - 1) + B := by omega
      rw [h3, Nat.add_div_right _ (by omega : 0 < B)]
      have h4 : (n - 1) / B = 0 := Nat.div_eq_of_lt (by omega)
      omega
    · have h4 : n - B + B - 1 = n - 1 := by omega
      have h3 : n + B - 1 = (n - 1) + B := by omega
      rw [h4, h3, Nat.add_div_right _ (by omega : 0 < B)]

theorem chunkList_full_batches {α : Type} (B : Nat) (hB : 1 ≤ B) (xs : List α)
    (i : Nat) (hi : i < xs.length / B) :
    ((chunkList B xs).getD i []).length = B := by
  induction xs using chunkList.induct B generalizing i with
  | case1 => simp at hi
  | case2 x rest h => omega
  | case3 x rest h ih =>
    rw [chunkList, if_neg h]
    have hBn : B ≤ (x :: rest).length := by
      by_contra hc
      push_neg at hc
      rw [Nat.div_eq_of_lt hc] at hi
      omega
    cases i with
    | zero =>
      simp only [List.getD_cons_zero]
      exact List.length_take_of_le hBn
    | succ j =>
      simp only [List.getD_cons_succ]
      apply ih
      rw [List.length_drop]
      rw [Nat.div_eq_sub_div (by omega) hBn] at hi
      omega

theorem chunkList_last {α : Type} (B : Nat) (hB : 1 ≤ B) (xs : List α) (hne : xs ≠ []) :
    ((chunkList B xs).getLast?.getD []).length =
      if xs.length % B = 0 then B else xs.length % B := by
  induction xs using chunkList.induct B with
  | case1 => exact absurd rfl hne
  | case2 x rest h => omega
  | case3 x rest h ih =>
    rw [chunkList, if_neg h]
    rcases le_or_lt (x :: rest).length B with hle | hgt
    · have hdrop : (x :: rest).drop B = [] := by
        rw [List.drop_eq_nil_iff]
        omega
      rw [hdrop]
      simp only [chunkList, List.getLast?_singleton, Option.getD_some, List.length_take]
      have hlen : 1 ≤ (x :: rest).length := by simp
      split
      next h0 =>
        have hlb : (x :: rest).length = B := by
          rcases lt_or_eq_of_le hle with hlt | heq
          · rw [Nat.mod_eq_of_lt hlt] at h0
            omega
          · exact heq
        omega
      next h0 =>
        have hlt : (x :: rest).length < B := by
          rcases lt_or_eq_of_le hle with hlt | heq
          · exact hlt
          · rw [heq, Nat.mod_self] at h0
            omega
        rw [Nat.mod_eq_of_lt hlt]
        omega
    · have hdropne : (x :: rest).drop B ≠ [] := by
        rw [ne_eq, List.drop_eq_nil_iff]
        omega
      obtain ⟨y, ys, hys⟩ := List.exists_cons_of_ne_nil hdropne
      have hcons : chunkList B ((x :: rest).drop B) =
          ((x :: rest).drop B).take B :: chunkList B (((x :: rest).drop B).drop B) := by
        rw [hys, chunkList, if_neg h]
      rw [hcons, List.getLast?_cons_cons, ← hcons, ih hdropne]
      have hsub : ((x :: rest).drop B).length = (x :: rest).length - B := List.length_drop _ _
      rw [hsub]
      have hmod : ((x :: rest).length - B) % B = (x :: rest).length % B := by
        conv_rhs => rw [show (x :: rest).length = ((x :: rest).length - B) + B by omega]
        rw [Nat.add_mod_right]
      rw [hmod]

/-- C2: for `N` valid anchors and `batch_size B ≥ 1`, the scheduler produces
exactly `⌈N/B⌉` batches; the first `⌊N/B⌋` batches each contain exactly `B`
anchors; the final batch contains `N mod B` anchors (or `B` when `B ∣ N`)
and is neither padded nor dropped; concatenating the batches in order yields
the `N` anchors in their original chronological order. -/
theorem batchScheduler_partition_spec (B : Nat) (hB : 1 ≤ B) (anchors : List Tick) :
    (chunkList B anchors).length = (anchors.length + B - 1) / B ∧
    (∀ i, i < anchors.length / B → ((chunkList B anchors).getD i []).length = B) ∧
    (anchors ≠ [] → ((chunkList B anchors).getLast?.getD []).length =
      if anchors.length % B = 0 then B else anchors.length % B) ∧
    (chunkList B anchors).flatten = anchors :=
  ⟨chunkList_length B hB anchors,
   fun i hi => chunkList_full_batches B hB anchors i hi,
   fun hne => chunkList_last B hB anchors hne,
   chunkList_flatten B hB anchors⟩

/-- Witness for C2 at `B = 3` and seven anchors. -/
theorem batchScheduler_partition_spec_witness :
    (chunkList 3 ([0, 1, 2, 3, 4, 5, 6] : List Tick)).length = (7 + 3 - 1) / 3 ∧
    (∀ i, i < 7 / 3 → ((chunkList 3 ([0, 1, 2, 3, 4, 5, 6] : List Tick)).getD i []).length = 3) ∧
    (([0, 1, 2, 3, 4, 5, 6] : List Tick) ≠ [] →
      ((chunkList 3 ([0, 1, 2, 3, 4, 5, 6] : List Tick)).getLast?.getD []).length =
        if 7 % 3 = 0 then 3 else 7 % 3) ∧
    (chunkList 3 ([0, 1, 2, 3, 4, 5, 6] : List Tick)).flatten = [0, 1, 2, 3, 4, 5, 6] := by
  have h := batchScheduler_partition_spec 3 (by decide) ([0, 1, 2, 3, 4, 5, 6] : List Tick)
  simpa using h

/-! ## TimeGridIndex / TECBatchBuilder (claims C3, C4)

`TECUtils` (in the absent `batch_utils.py`) bulk-loads the TEC maps and
then assembles per-anchor tensors.  After the bulk load the index is a pure
in-memory mapping from ticks to maps, modelled as `Tick → Option M` where
`none` marks a missing map and `M` is the TEC-map payload type. -/

/-- Per-run window configuration: one `WindowSpec` per channel plus the
output horizon (frequency and number of output TEC maps). -/
structure TECConfig where
  closeness : WindowSpec
  period : WindowSpec
  trend : WindowSpec
  output_freq : Nat
  num_of_output_tec_maps : Nat
deriving Repr, DecidableEq

/-- Offsets contributed by one channel: a disabled channel contributes no
offsets (spec §4.2, edge case). -/
def enabledOffsets (w : WindowSpec) : List Int :=
  if w.enabled then channelOffsets w.freq w.len else []

/-- Modelled from the spec: all offsets required for an anchor — every
enabled channel plus the output horizon. -/
def requiredOffsets (cfg : TECConfig) : List Int :=
  enabledOffsets cfg.closeness ++ enabledOffsets cfg.period ++ enabledOffsets cfg.trend ++
    outputOffsets cfg.output_freq cfg.num_of_output_tec_maps

/-- Modelled from the spec: `is_anchor_valid(anchor)` is true iff every
required offset (for every enabled channel and the output) resolves to an
available TEC map in `TimeGridIndex`. -/
def is_anchor_valid {M : Type} (idx : Tick → Option M) (cfg : TECConfig) (anchor : Tick) :
    Bool :=
  (requiredOffsets cfg).all (fun o => (idx (anchor + o)).isSome)

/-- Gather the maps at the given offsets relative to `anchor`; `none` when
any required map is missing. -/
def gatherOffsets {M : Type} (idx : Tick → Option M) (anchor : Tick) (offs : List Int) :
    Option (List M) :=
  offs.mapM (fun o => idx (anchor + o))

/-- The per-anchor slice of `BatchedTensors`: one ordered map sequence per
channel plus the ground-truth output sequence. -/
structure AnchorTensors (M : Type) where
  close : List M
  period : List M
  trend : List M
  out : List M

/-- Modelled from the spec: assemble one anchor's tensors, gathering the
ordered list of TEC maps at the computed offsets of each enabled channel
and of the output horizon. -/
def gatherAnchor {M : Type} (idx : Tick → Option M) (cfg : TECConfig) (anchor : Tick) :
    Option (AnchorTensors M) := do
  let c ← gatherOffsets idx anchor (enabledOffsets cfg.closeness)
  let p ← gatherOffsets idx anchor (enabledOffsets cfg.period)
  let t ← gatherOffsets idx anchor (enabledOffsets cfg.trend)
  let o ← gatherOffsets idx anchor (outputOffsets cfg.output_freq cfg.num_of_output_tec_maps)
  pure ⟨c, p, t, o⟩

/-- Error taxonomy relevant to batch construction (spec §7). -/
inductive BatchError where
  | invalidAnchor
deriving Repr, DecidableEq

/-- Modelled from the spec: `create_batch(anchor_list)` — assemble the
tensors of every anchor of the batch, failing with `InvalidAnchorError`
if any anchor is invalid.  Pure: the index is read-only during the call. -/
def create_batch {M : Type} (idx : Tick → Option M) (cfg : TECConfig) (anchors : List Tick) :
    Except BatchError (List (AnchorTensors M)) :=
  match anchors.mapM (gatherAnchor idx cfg) with
  | some ts => .ok ts
  | none => .error .invalidAnchor

theorem mapM_option_spec {α β : Type} (f : α → Option β) :
    ∀ (l : List α) (ys : List β), l.mapM f = some ys →
      ys.length = l.length ∧ ∀ y ∈ ys, ∃ a ∈ l, f a = some y := by
  intro l
  induction l with
  | nil =>
    intro ys h
    rw [show ([].mapM f) = some [] from rfl] at h
    cases h
    simp
  | cons a l ih =>
    intro ys h
    rw [List.mapM_cons] at h
    cases hfa : f a with
    | none => rw [hfa] at h; simp at h
    | some b =>
      rw [hfa] at h
      cases hml : l.mapM f with
      | none => rw [hml] at h; simp at h
      | some bs =>
        rw [hml] at h
        have h' : b :: bs = ys := by exact Option.some.inj h
        subst h'
        obtain ⟨hlen, hmem⟩ := ih bs hml
        refine ⟨by simp [hlen], ?_⟩
        intro y hy
        rcases List.mem_cons.mp hy with rfl | hy'
        · exact ⟨a, List.mem_cons_self a l, hfa⟩
        · obtain ⟨x, hx, hfx⟩ := hmem y hy'
          exact ⟨x, List.mem_cons_of_mem a hx, hfx⟩

theorem mapM_option_of_all {α β : Type} (f : α → Option β) :
    ∀ l : List α, (∀ a ∈ l, (f a).isSome) → ∃ ys, l.mapM f = some ys := by
  intro l
  induction l with
  | nil => intro _; exact ⟨[], rfl⟩
  | cons a l ih =>
    intro h
    obtain ⟨b, hb⟩ := Option.isSome_iff_exists.mp (h a (List.mem_cons_self a l))
    obtain ⟨bs, hbs⟩ := ih (fun x hx => h x (List.mem_cons_of_mem a hx))
    refine ⟨b :: bs, ?_⟩
    rw [List.mapM_cons, hb, hbs]
    rfl

theorem mapM_option_none {α β : Type} (f : α → Option β) :
    ∀ l : List α, l.mapM f = none → ∃ a ∈ l, f a = none := by
  intro l
  induction l with
  | nil => intro h; rw [show ([].mapM f) = some [] from rfl] at h; cases h
  | cons a l ih =>
    intro h
    cases hfa : f a with
    | none => exact ⟨a, List.mem_cons_self a l, hfa⟩
    | some b =>
      cases hml : l.mapM f with
      | none =>
        obtain ⟨x, hx, hfx⟩ := ih hml
        exact ⟨x, List.mem_cons_of_mem a hx, hfx⟩
      | some bs =>
        rw [List.mapM_cons, hfa, hml] at h
        exact Option.noConfusion h

theorem gatherOffsets_of_all {M : Type} (idx : Tick → Option M) (anchor : Tick)
    (offs : List Int) (h : ∀ o ∈ offs, (idx (anchor + o)).isSome) :
    ∃ l, gatherOffsets idx anchor offs = some l ∧ l.length = offs.length := by
  obtain ⟨l, hl⟩ := mapM_option_of_all (fun o => idx (anchor + o)) offs h
  exact ⟨l, hl, (mapM_option_spec _ offs l hl).1⟩

theorem gatherAnchor_of_valid {M : Type} (idx : Tick → Option M) (cfg : TECConfig)
    (anchor : Tick) (h : is_anchor_valid idx cfg anchor = true) :
    ∃ t : AnchorTensors M, gatherAnchor idx cfg anchor = some t ∧
      t.close.length = (enabledOffsets cfg.closeness).length ∧
      t.period.length = (enabledOffsets cfg.period).length ∧
      t.trend.length = (enabledOffsets cfg.trend).length ∧
      t.out.length = cfg.num_of_output_tec_maps := by
  simp only [is_anchor_valid, requiredOffsets, List.all_append, Bool.and_eq_true,
    List.all_eq_true] at h
  obtain ⟨⟨⟨hc, hp⟩, ht⟩, ho⟩ := h
  obtain ⟨lc, hlc, hlc'⟩ := gatherOffsets_of_all idx anchor _ hc
  obtain ⟨lp, hlp, hlp'⟩ := gatherOffsets_of_all idx anchor _ hp
  obtain ⟨lt, hlt, hlt'⟩ := gatherOffsets_of_all idx anchor _ ht
  obtain ⟨lo, hlo, hlo'⟩ := gatherOffsets_of_all idx anchor _ ho
  refine ⟨⟨lc, lp, lt, lo⟩, ?_, hlc', hlp', hlt', ?_⟩
  · simp [gatherAnchor, hlc, hlp, hlt, hlo, pure]
  · rw [hlo']
    simp [outputOffsets]

/-- C3: every batch whose anchors all pass `is_anchor_valid` is assembled
successfully by `create_batch`, and each returned per-anchor tensor has,
for every enabled channel, sequence length equal to the configured
`WindowSpec` length, and output horizon equal to the configured output
count. -/
theorem create_batch_of_valid {M : Type} (idx : Tick → Option M) (cfg : TECConfig)
    (anchors : List Tick)
    (hv : ∀ a ∈ anchors, is_anchor_valid idx cfg a = true) :
    ∃ ts, create_batch idx cfg anchors = .ok ts ∧ ts.length = anchors.length ∧
      ∀ t ∈ ts,
        (cfg.closeness.enabled = true → t.close.length = cfg.closeness.len) ∧
        (cfg.period.enabled = true → t.period.length = cfg.period.len) ∧
        (cfg.trend.enabled = true → t.trend.length = cfg.trend.len) ∧
        t.out.length = cfg.num_of_output_tec_maps := by
  have hall : ∀ a ∈ anchors, (gatherAnchor idx cfg a).isSome := by
    intro a ha
    obtain ⟨t, ht, _⟩ := gatherAnchor_of_valid idx cfg a (hv a ha)
    simp [ht]
  obtain ⟨ts, hts⟩ := mapM_option_of_all (gatherAnchor idx cfg) anchors hall
  obtain ⟨hlen, hmem⟩ := mapM_option_spec (gatherAnchor idx cfg) anchors ts hts
  refine ⟨ts, by unfold create_batch; rw [hts], hlen, ?_⟩
  intro t htmem
  obtain ⟨a, ha, hga⟩ := hmem t htmem
  obtain ⟨t', ht', hc, hp, htr, ho⟩ := gatherAnchor_of_valid idx cfg a (hv a ha)
  rw [hga] at ht'
  cases Option.some.inj ht'
  refine ⟨?_, ?_, ?_, ho⟩
  · intro he
    rw [hc]
    simp [enabledOffsets, he, channelOffsets_length]
  · intro he
    rw [hp]
    simp [enabledOffsets, he, channelOffsets_length]
  · intro he
    rw [htr]
    simp [enabledOffsets, he, channelOffsets_length]

/-- Witness for C3: a batch of one valid anchor under a concrete index and
an end-to-end-style configuration. -/
theorem create_batch_of_valid_witness :
    (∀ a ∈ ([0] : List Tick),
      is_anchor_valid (fun t : Tick => if -100 ≤ t ∧ t ≤ 100 then some (0 : Nat) else none)
        ⟨⟨1, 12, true⟩, ⟨12, 2, true⟩, ⟨36, 2, true⟩, 2, 3⟩ a = true) ∧
    ∃ ts, create_batch (fun t : Tick => if -100 ≤ t ∧ t ≤ 100 then some (0 : Nat) else none)
        ⟨⟨1, 12, true⟩, ⟨12, 2, true⟩, ⟨36, 2, true⟩, 2, 3⟩ ([0] : List Tick) = .ok ts ∧
      ts.length = ([0] : List Tick).length ∧
      ∀ t ∈ ts,
        ((true : Bool) = true → t.close.length = 12) ∧
        ((true : Bool) = true → t.period.length = 2) ∧
        ((true : Bool) = true → t.trend.length = 2) ∧
        t.out.length = 3 :=
  ⟨by decide,
   create_batch_of_valid (fun t : Tick => if -100 ≤ t ∧ t ≤ 100 then some (0 : Nat) else none)
     ⟨⟨1, 12, true⟩, ⟨12, 2, true⟩, ⟨36, 2, true⟩, 2, 3⟩ ([0] : List Tick) (by decide)⟩

/-- C4: `create_batch` is atomic — it either fully succeeds, returning one
complete tensor per anchor of the batch, or fails with `InvalidAnchorError`
because some anchor is invalid per the window sampler; being a pure
function of the read-only index, it changes no state, and in the failure
case no (partial) tensor is produced at all. -/
theorem create_batch_atomic {M : Type} (idx : Tick → Option M) (cfg : TECConfig)
    (anchors : List Tick) :
    (∃ ts, create_batch idx cfg anchors = .ok ts ∧ ts.length = anchors.length) ∨
    (create_batch idx cfg anchors = .error .invalidAnchor ∧
      ∃ a ∈ anchors, is_anchor_valid idx cfg a = false) := by
  cases hm : anchors.mapM (gatherAnchor idx cfg) with
  | some ts =>
    exact Or.inl ⟨ts, by unfold create_batch; rw [hm],
      (mapM_option_spec (gatherAnchor idx cfg) anchors ts hm).1⟩
  | none =>
    refine Or.inr ⟨by unfold create_batch; rw [hm], ?_⟩
    obtain ⟨a, ha, hga⟩ := mapM_option_none (gatherAnchor idx cfg) anchors hm
    refine ⟨a, ha, ?_⟩
    by_contra hvalid
    rw [Bool.not_eq_false] at hvalid
    obtain ⟨t, ht, _⟩ := gatherAnchor_of_valid idx cfg a hvalid
    rw [hga] at ht
    exact Option.noConfusion ht

/-! ## STResNet/main.py: anchor enumeration and train/validation split
(claims C6, C9)

Lines 76-83 of `main.py`: the shuffle of `batch_date_arr` is commented
out, so by default no shuffle is applied; the array is then split by
`train_ind = int(round(0.8 * N))` into `date_arr_train = arr[:train_ind]`
and `date_arr_test = arr[train_ind:]`. -/

/-- Embedded from `main.py` line 81:
`train_ind = int(round((train_test_ratio*batch_date_arr.shape[0]), 0))`
with `train_test_ratio = 0.8`.  Rounding `0.8 * N = 4N/5` to the nearest
integer equals `(4N + 2) / 5` in natural division (the fractional part of
`4N/5` is never exactly one half, so round-half-to-even agrees). -/
def train_ind (n : Nat) : Nat := (4 * n + 2) / 5

/-- Embedded from `main.py` line 82: `date_arr_train = batch_date_arr[:train_ind]`. -/
def date_arr_train (batch_date_arr : List Tick) : List Tick :=
  batch_date_arr.take (train_ind batch_date_arr.length)

/-- Embedded from `main.py` line 83: `date_arr_test = batch_date_arr[train_ind:]`. -/
def date_arr_test (batch_date_arr : List Tick) : List Tick :=
  batch_date_arr.drop (train_ind batch_date_arr.length)

/-- C9: the train/validation split partitions the batch anchor array
without reordering or loss: the training array has `round(0.8*N)` elements
(capped at `N`), concatenating training followed by validation recovers
the original anchor array, and every anchor occurrence belongs to exactly
one of the two arrays. -/
theorem train_test_split_partition (arr : List Tick) :
    (date_arr_train arr).length = min (train_ind arr.length) arr.length ∧
    (date_arr_test arr).length = arr.length - train_ind arr.length ∧
    date_arr_train arr ++ date_arr_test arr = arr ∧
    ∀ x : Tick, (date_arr_train arr).count x + (date_arr_test arr).count x = arr.count x := by
  refine ⟨List.length_take _ _, List.length_drop _ _, List.take_append_drop _ _, ?_⟩
  intro x
  conv_rhs => rw [← List.take_append_drop (train_ind arr.length) arr]
  rw [List.count_append]
  rfl

/-- Modelled from the spec: the valid-anchor enumeration of
`BatchDateUtils` — every tick of the configured range that passes
`is_anchor_valid`, in chronological order (spec §4.3: strictly
chronological by default). -/
def validAnchors {M : Type} (idx : Tick → Option M) (cfg : TECConfig)
    (start : Tick) (n : Nat) : List Tick :=
  ((List.range n).map (fun i : Nat => start + (i : Int))).filter
    (fun a => is_anchor_valid idx cfg a)

/-- Embedded from `main.py` line 49 over the spec-modelled scheduler:
`batch_date_arr = np.array(list(batchObj.batch_dict.keys()))` — the
representative (first) anchor of each batch, in enumeration order. -/
def batch_date_arr {M : Type} (idx : Tick → Option M) (cfg : TECConfig)
    (start : Tick) (n B : Nat) : List Tick :=
  (chunkList B (validAnchors idx cfg start n)).map (fun b => b.headD 0)

theorem chunkList_heads_sublist {α : Type} (B : Nat) (hB : 1 ≤ B) (d : α) (xs : List α) :
    ((chunkList B xs).map (fun b => b.headD d)).Sublist xs := by
  induction xs using chunkList.induct B with
  | case1 => simp [chunkList]
  | case2 x rest h => omega
  | case3 x rest h ih =>
    obtain ⟨B', rfl⟩ : ∃ B', B = B' + 1 := ⟨B - 1, by omega⟩
    rw [chunkList, if_neg h]
    simp only [List.drop_succ_cons] at ih
    simp only [List.take_succ_cons, List.drop_succ_cons, List.map_cons, List.headD_cons]
    exact List.Sublist.cons₂ x (ih.trans (List.drop_sublist B' rest))

theorem validAnchors_sorted {M : Type} (idx : Tick → Option M) (cfg : TECConfig)
    (start : Tick) (n : Nat) : (validAnchors idx cfg start n).Pairwise (· < ·) := by
  apply List.Pairwise.sublist (List.filter_sublist _)
  rw [List.pairwise_map]
  refine (List.pairwise_lt_range n).imp ?_
  intro a b hab
  show start + (a : Int) < start + (b : Int)
  exact add_lt_add_left (by exact_mod_cast hab) start

/-- C6: the enumeration of batch anchor dates used for training and
validation is strictly chronological, and no shuffle is applied anywhere
in the default pipeline (`main.py` lines 77, 98, 143 are commented out):
the train and validation arrays are order-preserving pieces of the
chronological enumeration, so both are strictly chronological and their
concatenation is the enumeration itself. -/
theorem enumeration_chronological {M : Type} (idx : Tick → Option M) (cfg : TECConfig)
    (start : Tick) (n B : Nat) (hB : 1 ≤ B) :
    (batch_date_arr idx cfg start n B).Pairwise (· < ·) ∧
    date_arr_train (batch_date_arr idx cfg start n B) ++
        date_arr_test (batch_date_arr idx cfg start n B) = batch_date_arr idx cfg start n B ∧
    (date_arr_train (batch_date_arr idx cfg start n B)).Pairwise (· < ·) ∧
    (date_arr_test (batch_date_arr idx cfg start n B)).Pairwise (· < ·) := by
  have hsorted : (batch_date_arr idx cfg start n B).Pairwise (· < ·) :=
    List.Pairwise.sublist (chunkList_heads_sublist B hB 0 _)
      (validAnchors_sorted idx cfg start n)
  refine ⟨hsorted, List.take_append_drop _ _, ?_, ?_⟩
  · exact List.Pairwise.sublist (List.take_sublist _ _) hsorted
  · exact List.Pairwise.sublist (List.drop_sublist _ _) hsorted

/-- Witness for C6 at a concrete index, configuration and range. -/
theorem enumeration_chronological_witness :
    (batch_date_arr (fun t : Tick => if 0 ≤ t ∧ t ≤ 100 then some (0 : Nat) else none)
        ⟨⟨1, 2, true⟩, ⟨2, 1, true⟩, ⟨3, 1, true⟩, 1, 1⟩ 0 10 4).Pairwise (· < ·) ∧
    date_arr_train (batch_date_arr (fun t : Tick => if 0 ≤ t ∧ t ≤ 100 then some (0 : Nat) else none)
        ⟨⟨1, 2, true⟩, ⟨2, 1, true⟩, ⟨3, 1, true⟩, 1, 1⟩ 0 10 4) ++
      date_arr_test (batch_date_arr (fun t : Tick => if 0 ≤ t ∧ t ≤ 100 then some (0 : Nat) else none)
        ⟨⟨1, 2, true⟩, ⟨2, 1, true⟩, ⟨3, 1, true⟩, 1, 1⟩ 0 10 4) =
      batch_date_arr (fun t : Tick => if 0 ≤ t ∧ t ≤ 100 then some (0 : Nat) else none)
        ⟨⟨1, 2, true⟩, ⟨2, 1, true⟩, ⟨3, 1, true⟩, 1, 1⟩ 0 10 4 ∧
    (date_arr_train (batch_date_arr (fun t : Tick => if 0 ≤ t ∧ t ≤ 100 then some (0 : Nat) else none)
        ⟨⟨1, 2, true⟩, ⟨2, 1, true⟩, ⟨3, 1, true⟩, 1, 1⟩ 0 10 4)).Pairwise (· < ·) ∧
    (date_arr_test (batch_date_arr (fun t : Tick => if 0 ≤ t ∧ t ≤ 100 then some (0 : Nat) else none)
        ⟨⟨1, 2, true⟩, ⟨2, 1, true⟩, ⟨3, 1, true⟩, 1, 1⟩ 0 10 4)).Pairwise (· < ·) :=
  enumeration_chronological (fun t : Tick => if 0 ≤ t ∧ t ≤ 100 then some (0 : Nat) else none)
    ⟨⟨1, 2, true⟩, ⟨2, 1, true⟩, ⟨3, 1, true⟩, 1, 1⟩ 0 10 4 (by decide)

/-! ## ExogenousBatchBuilder / OmnData normalization (claim C5)

`omn_utils.py` is absent from the excerpt; `OmnData` is modelled from the
spec.  The callers are embedded from the source: `main.py` line 59 makes
the model path unique, line 63 derives the values folder, line 74
constructs `OmnData` with `omn_train=True`; `gen_pred_tec.py` line 66 sets
`omn_train=False` and line 75 derives the same values folder from the
saved model's path. -/

/-- Persisted normalization parameters (the `mean_std.npy` artifact).
The payload is abstract: only identity of the persisted value matters. -/
structure NormParams where
  mean : Rat
  std : Rat
deriving Repr, DecidableEq

/-- Modelled from the spec: `OmnData.__init__(... omn_train, imf_normalize,
path)` — when normalization is enabled, in training mode compute mean/std
over the training range only and persist them under `path`; in inference
mode read the persisted parameters back from `path` and never recompute
them from the given (inference-time) data.  The result is the parameters
in use plus the disk after the call (a map from file path to persisted
parameters). -/
def omnDataInit (omn_train imf_normalize : Bool) (compute : List Rat → NormParams)
    (rangeData : List Rat) (disk : String → Option NormParams) (path : String) :
    Option NormParams × (String → Option NormParams) :=
  if imf_normalize then
    if omn_train then
      let p := compute rangeData
      (some p, fun s => if s = path ++ "/mean_std.npy" then some p else disk s)
    else
      (disk (path ++ "/mean_std.npy"), disk)
  else
    (none, disk)

/-- Embedded from `main.py` line 59: `param.model_path = param.model_path
+ '_' + str(t02-t01)` — the run-specific unique model path. -/
def uniqueModelPath (model_path timeStr : String) : String :=
  model_path ++ "_" ++ timeStr

/-- Embedded from `main.py` line 63: `path = param.model_path + "_values"`. -/
def trainValuesPath (model_path : String) : String := model_path ++ "_values"

/-- Embedded from `gen_pred_tec.py` line 75: `path = param.saved_model_path
+ "_values"`. -/
def savedValuesPath (saved_model_path : String) : String := saved_model_path ++ "_values"

/-- Embedded from `main.py` lines 70 and 74: the training run constructs
`OmnData` with `omn_train=True` and the values path of the (unique) model
path. -/
def trainOmnInit (compute : List Rat → NormParams) (trainData : List Rat)
    (disk : String → Option NormParams) (model_path : String) :
    Option NormParams × (String → Option NormParams) :=
  omnDataInit true true compute trainData disk (trainValuesPath model_path)

/-- Embedded from `gen_pred_tec.py` lines 66 and 78: the inference run
constructs `OmnData` with `omn_train=False` and the values path derived
from the saved model's path. -/
def inferOmnInit (compute : List Rat → NormParams) (inferData : List Rat)
    (disk : String → Option NormParams) (saved_model_path : String) :
    Option NormParams × (String → Option NormParams) :=
  omnDataInit false true compute inferData disk (savedValuesPath saved_model_path)

/-- C5: with normalization enabled, the training run computes the mean/std
parameters from the training-range data only and persists them to the
run-specific values location; a subsequent inference run against the same
saved model reads exactly those persisted parameters back (its result does
not depend on the inference-time data, so they are never recomputed), and
it writes nothing. -/
theorem normalization_persist_and_reuse (compute : List Rat → NormParams)
    (trainData inferData inferData' : List Rat) (disk : String → Option NormParams)
    (model_path timeStr : String) :
    (trainOmnInit compute trainData disk (uniqueModelPath model_path timeStr)).1
        = some (compute trainData) ∧
    (trainOmnInit compute trainData disk (uniqueModelPath model_path timeStr)).2
        (trainValuesPath (uniqueModelPath model_path timeStr) ++ "/mean_std.npy")
        = some (compute trainData) ∧
    (inferOmnInit compute inferData
        (trainOmnInit compute trainData disk (uniqueModelPath model_path timeStr)).2
        (uniqueModelPath model_path timeStr)).1 = some (compute trainData) ∧
    (inferOmnInit compute inferData disk model_path).1
        = (inferOmnInit compute inferData' disk model_path).1 ∧
    (inferOmnInit compute inferData disk model_path).2 = disk := by
  refine ⟨rfl, ?_, ?_, rfl, rfl⟩
  · simp [trainOmnInit, omnDataInit]
  · simp [inferOmnInit, trainOmnInit, omnDataInit, savedValuesPath, trainValuesPath]

/-! ## Exogenous batch shape (claim C7)

`get_omn_batch` lives in the absent `omn_utils.py` and is modelled from
the spec; the call sites are embedded from the source: `main.py` lines
116 and 154 and `gen_pred_tec.py` line 132 all call
`omnObj.get_omn_batch(current_datetime, param.batch_size,
param.trend_freq, trend_size)` with `trend_size =
param.trend_sequence_length`. -/

/-- Modelled from the spec: `get_batch(anchor_list, trend_freq,
trend_length)` — for each anchor, gather the same offset pattern as the
trend channel (reusing the window sampler's offset algorithm) against the
exogenous time series; fails when any required tick has no record.  `F` is
the scalar feature type, one record being a feature vector. -/
def get_omn_batch {F : Type} (store : Tick → Option (List F)) (anchors : List Tick)
    (freq len : Nat) : Option (List (List (List F))) :=
  anchors.mapM (fun a => (channelOffsets freq len).mapM (fun o => store (a + o)))

/-- Embedded from `main.py` line 116 (and `gen_pred_tec.py` line 132): the
exogenous batch for an anchor batch is requested with exactly the trend
channel's frequency and sequence length. -/
def imf_batch {F : Type} (store : Tick → Option (List F)) (cfg : TECConfig)
    (anchors : List Tick) : Option (List (List (List F))) :=
  get_omn_batch store anchors cfg.trend.freq cfg.trend.len

/-- C7: whenever the exogenous batch is produced, it has shape
`[batch_size, trend_length, feature_dim]` — one row per anchor of the
batch, each row of length equal to the trend channel's sequence length,
each record of the common feature dimension — and every row is gathered at
exactly the trend channel's offset pattern for its anchor. -/
theorem omn_batch_uses_trend_pattern {F : Type} (store : Tick → Option (List F))
    (cfg : TECConfig) (anchors : List Tick) (D : Nat)
    (hD : ∀ t r, store t = some r → r.length = D)
    (batch : List (List (List F))) (h : imf_batch store cfg anchors = some batch) :
    batch.length = anchors.length ∧
    ∀ row ∈ batch,
      row.length = cfg.trend.len ∧
      (∀ rec ∈ row, rec.length = D) ∧
      ∃ a ∈ anchors,
        (channelOffsets cfg.trend.freq cfg.trend.len).mapM (fun o => store (a + o))
          = some row := by
  obtain ⟨hlen, hmem⟩ := mapM_option_spec _ anchors batch h
  refine ⟨hlen, ?_⟩
  intro row hrow
  obtain ⟨a, ha, hga⟩ := hmem row hrow
  obtain ⟨hrlen, hrm⟩ := mapM_option_spec _ _ row hga
  refine ⟨by rw [hrlen, channelOffsets_length], ?_, a, ha, hga⟩
  intro rec hrec
  obtain ⟨o, _, ho⟩ := hrm rec hrec
  exact hD _ rec ho

/-- Witness for C7: a constant exogenous store with one feature, a batch
of one anchor, and a trend channel of frequency 2 and length 2. -/
theorem omn_batch_uses_trend_pattern_witness :
    (∀ t r, (fun _ : Tick => some [(0 : Int)]) t = some r → r.length = 1) ∧
    (imf_batch (fun _ : Tick => some [(0 : Int)])
        ⟨⟨1, 12, true⟩, ⟨12, 2, true⟩, ⟨2, 2, true⟩, 2, 3⟩ ([0] : List Tick)
      = some [[[0], [0]]]) ∧
    ([[[(0 : Int)], [0]]].length = ([0] : List Tick).length ∧
      ∀ row ∈ [[[(0 : Int)], [0]]],
        row.length = 2 ∧
        (∀ rec ∈ row, rec.length = 1) ∧
        ∃ a ∈ ([0] : List Tick),
          (channelOffsets 2 2).mapM (fun o => (fun _ : Tick => some [(0 : Int)]) (a + o))
            = some row) := by
  refine ⟨fun t r h => by cases h; rfl, rfl, ?_⟩
  exact omn_batch_uses_trend_pattern (fun _ : Tick => some [(0 : Int)])
    ⟨⟨1, 12, true⟩, ⟨12, 2, true⟩, ⟨2, 2, true⟩, 2, 3⟩ ([0] : List Tick) 1
    (fun t r h => by cases h; rfl) [[[0], [0]]] rfl

/-! ## Per-anchor prediction files (claim C8)

Embedded from `gen_pred_tec.py`: line 103 `path_pred =
path+'/'+"predicted_tec"` (the directory is then created at lines
104-105), lines 208-212 build the per-anchor file names, and lines
213-220 save with `np.save(path_pred+tec_pred, pred[j])` — note the
missing separator between `path_pred` and the file name.  The offline
validator (`ts_pred_lat_bin.py` lines 29 and 63-65) reads the files from
inside the `predicted_tec/` directory. -/

/-- Embedded from `gen_pred_tec.py` line 103: `path_pred = path+'/'+"predicted_tec"`. -/
def path_pred (path : String) : String := path ++ "/" ++ "predicted_tec"

/-- Embedded from `gen_pred_tec.py` line 208: `tec_pred =
dtm.strftime("%Y%m%d.%H%M") + "_pred.npy"`. -/
def tec_pred (dtm : String) : String := dtm ++ "_pred.npy"

/-- Embedded from `gen_pred_tec.py` line 213: `np.save(path_pred+tec_pred,
pred[j])` — the path the prediction of anchor `dtm` is actually written
to (plain string concatenation, no separator). -/
def savedPredPath (path dtm : String) : String := path_pred path ++ tec_pred dtm

/-- Embedded from `ts_pred_lat_bin.py` lines 29 and 63-65: the validator
looks for the prediction of time `dtStr` at `baseModelDir + modelName +
"/" + "predicted_tec/" + dtStr + "_pred.npy"`, i.e. inside the
`predicted_tec` directory. -/
def readerPredPath (baseModelDir modelName dtStr : String) : String :=
  (baseModelDir ++ modelName ++ "/" ++ "predicted_tec/") ++ dtStr ++ "_" ++ "pred" ++ ".npy"

/-- C8 (code bug): at the concrete anchor `2015-03-05 12:00` and values
folder `m_values`, `gen_pred_tec.py` writes the prediction to
`m_values/predicted_tec20150305.1200_pred.npy` — a sibling of the
`predicted_tec` directory whose name merely starts with `predicted_tec` —
while the claim (and the validator that consumes the files) expects
`m_values/predicted_tec/20150305.1200_pred.npy` inside the directory;
the two paths differ. -/
theorem predicted_tec_path_bug :
    savedPredPath "m_values" "20150305.1200"
        = "m_values/predicted_tec20150305.1200_pred.npy" ∧
    readerPredPath "" "m_values" "20150305.1200"
        = "m_values/predicted_tec/20150305.1200_pred.npy" ∧
    savedPredPath "m_values" "20150305.1200"
        ≠ readerPredPath "" "m_values" "20150305.1200" := by
  refine ⟨rfl, rfl, ?_⟩
  decide

/-! ## ModValTSLat constructor checks (claim C10)

Embedded from `ts_pred_lat_bin.py` lines 15-41: `ModValTSLat.__init__`
stores its arguments and, when `timeRange` is not `None`, asserts that
the minute of both endpoints is a multiple of 5. -/

/-- A wall-clock timestamp as far as `ModValTSLat.__init__` inspects it:
only the `minute` field is examined by the constructor. -/
structure DateTime where
  year : Nat
  month : Nat
  day : Nat
  hour : Nat
  minute : Nat
deriving Repr, DecidableEq

/-- State constructed by `ModValTSLat.__init__` (the two result dicts
start empty and are omitted). -/
structure ModValTSLat where
  modelDir : String
  trueTecBaseDir : String
  timeRange : Option (DateTime × DateTime)
  latBinSize : Nat
  mlonRange : Option (Int × Int)

/-- Embedded from `ts_pred_lat_bin.py` lines 15-41: the constructor.
An `assert` failure is modelled as `Except.error` carrying the assertion
message. -/
def ModValTSLat.init (baseModelDir modelName trueTecBaseDir : String)
    (timeRange : Option (DateTime × DateTime)) (latBinSize : Nat)
    (mlonRange : Option (Int × Int)) : Except String ModValTSLat :=
  let modelDir := baseModelDir ++ modelName ++ "/" ++ "predicted_tec/"
  match timeRange with
  | none => .ok ⟨modelDir, trueTecBaseDir, none, latBinSize, mlonRange⟩
  | some (s, e) =>
    if s.minute % 5 = 0 then
      if e.minute % 5 = 0 then
        .ok ⟨modelDir, trueTecBaseDir, some (s, e), latBinSize, mlonRange⟩
      else
        .error "End Time minute should end with 0 or 5."
    else
      .error "Start Time minute should end with 0 or 5."

/-- C10: constructing `ModValTSLat` with a non-`None` `timeRange` succeeds
exactly when the minutes of both the start and the end timestamp are
multiples of 5 (an assertion error otherwise), and with `timeRange = None`
no alignment check is performed: construction succeeds for all other
arguments. -/
theorem modValTSLat_init_minute_check (baseModelDir modelName trueTecBaseDir : String)
    (timeRange : Option (DateTime × DateTime)) (latBinSize : Nat)
    (mlonRange : Option (Int × Int)) :
    (∃ v, ModValTSLat.init baseModelDir modelName trueTecBaseDir timeRange latBinSize
        mlonRange = .ok v) ↔
      (timeRange = none ∨
        ∃ s e, timeRange = some (s, e) ∧ s.minute % 5 = 0 ∧ e.minute % 5 = 0) := by
  cases timeRange with
  | none =>
    exact ⟨fun _ => Or.inl rfl, fun _ => ⟨_, rfl⟩⟩
  | some p =>
    obtain ⟨s, e⟩ := p
    simp only [ModValTSLat.init]
    constructor
    · rintro ⟨v, hv⟩
      refine Or.inr ⟨s, e, rfl, ?_, ?_⟩
      · by_contra hs
        rw [if_neg hs] at hv
        · exact Except.noConfusion hv
      · by_contra he
        by_cases hs : s.minute % 5 = 0
        · rw [if_pos hs, if_neg he] at hv
          exact Except.noConfusion hv
        · rw [if_neg hs] at hv
          exact Except.noConfusion hv
    · rintro (h | ⟨s', e', hse, hs, he⟩)
      · exact Option.noConfusion h
      · obtain ⟨rfl, rfl⟩ : s = s' ∧ e = e' := by
          have := Option.some.inj hse
          exact ⟨congrArg Prod.fst this, congrArg Prod.snd this⟩
        rw [if_pos hs, if_pos he]
        exact ⟨_, rfl⟩

end TECBatching
